import Mathlib

/-!
Shallow embedding of `cmd/root.go` of the package-analyser tool.

The tool scans a Go package (local directory or GitHub directory) and
reports, per package unit: a histogram of per-file exported-function
counts, a summary line with the total exported-function count and the
file count, and the sorted list of distinct import paths.

Go values are embedded as follows: the parsed Go AST of one file
(`*ast.File`) becomes `GoFile`; `ast.Decl` becomes `Decl`;
`map[string]bool` used as a set becomes a duplicate-free `List String`
built by `insertImport`; the float64 per-file counter holds only
non-negative integer counts and becomes `Nat`.  The GitHub client and
the Go parser are opaque collaborators supplied through `GithubEnv`.
-/

namespace PackageAnalyser

/-- A top-level Go declaration (`ast.Decl`).  `funcDecl recv name`
embeds `*ast.FuncDecl` (`recv = true` iff the function has a receiver,
i.e. is a method); `genDecl` embeds `*ast.GenDecl` (import, const, type
and var declarations) with its keyword and declared names; `badDecl`
embeds `*ast.BadDecl`. -/
inductive Decl where
  | funcDecl (recv : Bool) (name : String)
  | genDecl (keyword : String) (names : List String)
  | badDecl
deriving DecidableEq, Repr

/-- The parsed form of one Go source file (`*ast.File`): its file name,
its declared package name (`f.Name.Name`), its top-level declarations
(`f.Decls`) and the values of its import specs (`i.Path.Value` for
`i` in `f.Imports`) — raw quoted path strings, quotes included. -/
structure GoFile where
  fileName : String
  pkgName : String
  decls : List Decl
  imports : List String
deriving DecidableEq, Repr

/-- `ast.IsExported`: the first character of the name is an upper-case
letter (`unicode.IsUpper` on the first rune; the empty name is not
exported). -/
def isExported (name : String) : Bool :=
  match name.data with
  | [] => false
  | c :: _ => c.isUpper

/-- One step of the per-file declaration loop shared by both code
paths (root.go lines 88-93 and 130-135): the pair carries the running
`publicFunctions` total and the `publicFuncsPerFile` counter, both
incremented when the declaration is a `*ast.FuncDecl` with an exported
name (`if fn, isFn := d.(*ast.FuncDecl); isFn &&
ast.IsExported(fn.Name.Name)`). -/
def declLoop (acc : Nat × Nat) (d : Decl) : Nat × Nat :=
  match d with
  | Decl.funcDecl _ n => if isExported n then (acc.1 + 1, acc.2 + 1) else acc
  | _ => acc

/-- The exported-function count of a declaration list: the
`publicFuncsPerFile` counter after the loop, started at zero. -/
def countExportedFuncs (decls : List Decl) : Nat :=
  (decls.foldl declLoop (0, 0)).2

/-- The value of `publicFuncsPerFile` after one file's counting loop. -/
def publicFuncsPerFile (f : GoFile) : Nat :=
  countExportedFuncs f.decls

/-- The spec's characterization of a counted declaration: a top-level
function declaration whose name's first character is upper-case. -/
def exportedFuncDeclSpec : Decl → Bool
  | Decl.funcDecl _ name =>
      match name.data with
      | [] => false
      | c :: _ => c.isUpper
  | _ => false

theorem exportedFuncDeclSpec_funcDecl (recv : Bool) (name : String) :
    exportedFuncDeclSpec (Decl.funcDecl recv name) = isExported name := rfl

/-- Insertion into the `map[string]bool` import set: a key already
present is left alone, a new key is added. -/
def insertImport (s : List String) (i : String) : List String :=
  if i ∈ s then s else s ++ [i]

/-- The running aggregate of one package unit: `publicFunctions`,
`fileCount`, `data` (the per-file series handed to the histogram) and
`imports` (the keys of the `map[string]bool`). -/
structure ScanAcc where
  publicFunctions : Nat
  fileCount : Nat
  data : List Nat
  imports : List String
deriving DecidableEq, Repr

/-- The per-file body of the scanning loop, identical in
`parseGithubPackage` and `parseLocalPackage`: bump the file count, add
the file's exported-function count to the total, append it to the data
series, and union the file's imports into the import set. -/
def scanFile (acc : ScanAcc) (f : GoFile) : ScanAcc :=
  let t := f.decls.foldl declLoop (acc.publicFunctions, 0)
  { publicFunctions := t.1
    fileCount := acc.fileCount + 1
    data := acc.data ++ [t.2]
    imports := f.imports.foldl insertImport acc.imports }

/-- Scanning a whole file sequence from the zero accumulator. -/
def scanFiles (files : List GoFile) : ScanAcc :=
  files.foldl scanFile ⟨0, 0, [], []⟩

/-- Go's string comparison `a < b` on the underlying character
sequences: lexicographic order (UTF-8 byte order coincides with code
point order, embedded here through `Char.toNat`). -/
def charListLt : List Char → List Char → Bool
  | _, [] => false
  | [], _ :: _ => true
  | c :: cs, d :: ds =>
    if c.toNat < d.toNat then true
    else if d.toNat < c.toNat then false
    else charListLt cs ds

/-- Go's `a < b` on strings, used by `alphabetical.Less`
(root.go line 170). -/
def stringLess (a b : String) : Bool := charListLt a.data b.data

/-- The non-strict order induced by `alphabetical.Less`: `a ≤ b` iff
`¬ (b < a)`.  `sort.Sort` leaves the slice ordered by this
relation. -/
def stringLe (a b : String) : Bool := !(stringLess b a)

/-- `sort.Sort(alphabetical(...))`: sort the import slice so that
consecutive elements satisfy `stringLe`, i.e. ascending lexicographic
order. -/
def sortAlphabetical (xs : List String) : List String :=
  List.insertionSort (fun a b => stringLe a b = true) xs

/-- Helper for `strings.HasSuffix`: the first list is an initial
segment of the second. -/
def listBeginsWith : List Char → List Char → Bool
  | [], _ => true
  | _ :: _, [] => false
  | c :: cs, d :: ds => c.toNat == d.toNat && listBeginsWith cs ds

/-- `strings.HasSuffix s pat`. -/
def strEndsWith (s pat : String) : Bool :=
  listBeginsWith pat.data.reverse s.data.reverse

/-- `strings.Split` with a one-character separator: Go semantics, the
empty string splits to `[""]`, adjacent separators yield empty
segments. -/
def splitChar (sep : Char) : List Char → List (List Char)
  | [] => [[]]
  | c :: cs =>
    match splitChar sep cs with
    | [] => [[c]]
    | g :: gs =>
        if c.toNat == sep.toNat then [] :: g :: gs else (c :: g) :: gs

/-- `strings.Split s (String.singleton sep)`. -/
def strSplitOnChar (sep : Char) (s : String) : List String :=
  (splitChar sep s.data).map String.mk

/-- `toSlice`: the keys of the import map, in some order; the keys of
our list model are the list itself. -/
def toSlice (is : List String) : List String := is

/-- The observable outcome of reporting one package unit: the
arguments passed to `histogram.Hist` (`histBins`, `histData`), the
numbers printed on the summary line, the package name carried by the
summary line (`none` in the GitHub path, whose format string has no
name), and the sorted import list printed at the end. -/
structure PkgReport where
  name : Option String
  publicFunctions : Nat
  fileCount : Nat
  histBins : Nat
  histData : List Nat
  sortedImports : List String
deriving DecidableEq, Repr

/-- The `fmt.Printf` summary line: `Package '%s' has %d exported
function(s) across %d file(s)` in the local path, `Package has %d
exported function(s) across %d file(s)` in the GitHub path. -/
def summaryLine (r : PkgReport) : String :=
  match r.name with
  | some n =>
      "Package '" ++ n ++ "' has " ++ toString r.publicFunctions ++
        " exported function(s) across " ++ toString r.fileCount ++ " file(s)"
  | none =>
      "Package has " ++ toString r.publicFunctions ++
        " exported function(s) across " ++ toString r.fileCount ++ " file(s)"

/-- The `fmt.Printf("Importing the following: %v\n", i)` line: Go's
`%v` on a string slice prints the elements separated by single spaces
between square brackets, each element as its raw characters. -/
def importsLine (r : PkgReport) : String :=
  "Importing the following: [" ++ String.intercalate " " r.sortedImports ++ "]"

/-- Modelled from the spec: the `histogram.Hist` / `histogram.Fprint`
rendering lives in the external uniplot dependency, not in this
repository.  The spec fixes the behaviour this development needs:
empty input yields an empty histogram with no bars (and does not
fail); a non-empty input renders one bar line per bin.  The text of a
bar line is not claim-relevant and is left schematic. -/
def histLines (bins : Nat) (data : List Nat) : List String :=
  if data.isEmpty then []
  else (List.range bins).map (fun b => "histogram bin " ++ toString b)

/-- Everything one package unit writes to stdout, in order: the
histogram, the summary line, the imports line. -/
def reportLines (r : PkgReport) : List String :=
  histLines r.histBins r.histData ++ [summaryLine r, importsLine r]

/-- Build the report of one scanned package unit, as both code paths
do after their scanning loop: `histogram.Hist(5, data)`, the summary
`Printf`, then `sort.Sort(alphabetical(toSlice(imports)))` and the
imports `Printf`. -/
def mkReport (name : Option String) (acc : ScanAcc) : PkgReport :=
  { name := name
    publicFunctions := acc.publicFunctions
    fileCount := acc.fileCount
    histBins := 5
    histData := acc.data
    sortedImports := sortAlphabetical (toSlice acc.imports) }

/-! ## Local path (`parseLocalPackage`, root.go lines 115-156) -/

/-- `fs.FileInfo` as far as `dirFilter` can observe it. -/
structure FileInfo where
  name : String
  isDir : Bool
deriving DecidableEq, Repr

/-- root.go line 32: `func dirFilter(f fs.FileInfo) bool { return true }`. -/
def dirFilter (_ : FileInfo) : Bool := true

/-- One step of `parser.ParseDir`'s grouping of parsed files into
`map[string]*ast.Package` by declared package name: append the file to
its package's group, creating the group if the name is new. -/
def insertGroup (groups : List (String × List GoFile)) (f : GoFile) :
    List (String × List GoFile) :=
  match groups with
  | [] => [(f.pkgName, [f])]
  | (n, fs) :: rest =>
      if n = f.pkgName then (n, fs ++ [f]) :: rest
      else (n, fs) :: insertGroup rest f

/-- `parser.ParseDir`'s result: the directory's parsed files grouped
by declared package name, one group per distinct name. -/
def parseDir (files : List GoFile) : List (String × List GoFile) :=
  files.foldl insertGroup []

/-- The body of `parseLocalPackage`'s per-package loop: scan the
package's files and report.  `pkg.Name` is the group's key. -/
def localReport (g : String × List GoFile) : PkgReport :=
  mkReport (some g.1) (scanFiles g.2)

/-- `parseLocalPackage` after a successful `parser.ParseDir`: one
report per discovered package. -/
def parseLocalReports (files : List GoFile) : List PkgReport :=
  (parseDir files).map localReport

/-- `parseLocalPackage` (root.go lines 115-156).  The input models the
outcome of `parser.ParseDir`: `Except.error e` when reading or parsing
the directory fails (the function returns `err` before any output),
`Except.ok files` otherwise.  The result pairs the returned error
value with the lines written to stdout. -/
def parseLocalPackage (dir : Except String (List GoFile)) :
    Except String Unit × List String :=
  match dir with
  | Except.error e => (Except.error e, [])
  | Except.ok files =>
      (Except.ok (), (parseLocalReports files).flatMap reportLines)

/-! ## GitHub path (`parseGithubPackage`, root.go lines 42-113) -/

/-- One entry of the directory listing returned by the first
`client.Repositories.GetContents` call: its name and its path. -/
structure RemoteFile where
  name : String
  path : String
deriving DecidableEq, Repr

/-- The opaque collaborators of the GitHub path: the directory listing
(the first `GetContents` call), the per-file content fetch (the second
`GetContents` call together with `GetContent` decoding), and
`parser.ParseFile` on the fetched text.  Each field gives the
outcome the run would observe. -/
structure GithubEnv where
  dirListing : Except String (List RemoteFile)
  fetchFile : String → Except String String
  parseGo : String → String → Except String GoFile

/-- `u.Path` of `url.Parse` for the locators this tool receives:
scheme-less strings such as `github.com/owner/repo/dir` have no
scheme, query or fragment, so the path component is the whole
string. -/
def urlPath (pkg : String) : String := pkg

/-- Fetching and parsing one listed file (root.go lines 71-85): the
content fetch wraps its failure as `getting file`, the parse wraps its
failure as `parsing file`. -/
def fileStep (env : GithubEnv) (rf : RemoteFile) : Except String GoFile :=
  match env.fetchFile rf.path with
  | Except.error e => Except.error ("getting file: " ++ e)
  | Except.ok c =>
      match env.parseGo rf.name c with
      | Except.error e => Except.error ("parsing file: " ++ e)
      | Except.ok gf => Except.ok gf

/-- The per-entry loop of `parseGithubPackage` (root.go lines 66-99):
skip entries whose name does not end in `.go`; for each remaining
entry perform one network fetch (counted in the second component),
parse it, and fold it into the accumulator with the shared scanning
body; any fetch or parse failure returns immediately. -/
def remoteLoop (env : GithubEnv) (acc : ScanAcc) (calls : Nat) :
    List RemoteFile → Except String ScanAcc × Nat
  | [] => (Except.ok acc, calls)
  | rf :: rest =>
      if strEndsWith rf.name ".go" then
        match fileStep env rf with
        | Except.error e => (Except.error e, calls + 1)
        | Except.ok gf => remoteLoop env (scanFile acc gf) (calls + 1) rest
      else remoteLoop env acc calls rest

/-- `parseGithubPackage` (root.go lines 42-113) up to its report
value: split the locator's path on `/`; fewer than 3 segments fails
with `package not specified` before any network call; otherwise one
listing call, then the per-file loop, then the report.  The second
component counts the `GetContents` network calls performed. -/
def parseGithubPackage (env : GithubEnv) (pkg : String) :
    Except String PkgReport × Nat :=
  let s := strSplitOnChar '/' (urlPath pkg)
  if s.length < 3 then (Except.error "package not specified", 0)
  else
    match env.dirListing with
    | Except.error e => (Except.error ("getting package: " ++ e), 1)
    | Except.ok dirC =>
        match remoteLoop env ⟨0, 0, [], []⟩ 1 dirC with
        | (Except.error e, calls) => (Except.error e, calls)
        | (Except.ok acc, calls) => (Except.ok (mkReport none acc), calls)

/-- The GitHub path's observable run: the returned error value, the
lines written to stdout (all output happens after the loop succeeds),
and the network call count. -/
def parseGithubRun (env : GithubEnv) (pkg : String) :
    Except String Unit × List String × Nat :=
  match parseGithubPackage env pkg with
  | (Except.error e, calls) => (Except.error e, [], calls)
  | (Except.ok r, calls) => (Except.ok (), reportLines r, calls)

/-! ## Order lemmas for the alphabetical sort -/

theorem char_eq_of_toNat_eq {c d : Char} (h : c.toNat = d.toNat) : c = d := by
  apply Char.ext
  apply UInt32.ext
  exact h

theorem charListLt_asymm :
    ∀ x y, charListLt x y = true → charListLt y x = false := by
  intro x
  induction x with
  | nil => intro y _; cases y <;> simp [charListLt]
  | cons c cs ih =>
      intro y hxy
      cases y with
      | nil => simp [charListLt] at hxy
      | cons d ds =>
          simp only [charListLt] at hxy ⊢
          by_cases h1 : c.toNat < d.toNat
          · rw [if_neg (by omega), if_pos h1]
          · by_cases h2 : d.toNat < c.toNat
            · rw [if_neg h1, if_pos h2] at hxy
              cases hxy
            · rw [if_neg h1, if_neg h2] at hxy
              rw [if_neg h2, if_neg h1]
              exact ih ds hxy

theorem charListLt_connex :
    ∀ x y, charListLt x y = false → charListLt y x = false → x = y := by
  intro x
  induction x with
  | nil =>
      intro y hxy _
      cases y with
      | nil => rfl
      | cons d ds => simp [charListLt] at hxy
  | cons c cs ih =>
      intro y hxy hyx
      cases y with
      | nil => simp [charListLt] at hyx
      | cons d ds =>
          simp only [charListLt] at hxy hyx
          by_cases h1 : c.toNat < d.toNat
          · rw [if_pos h1] at hxy
            cases hxy
          · by_cases h2 : d.toNat < c.toNat
            · rw [if_pos h2] at hyx
              cases hyx
            · rw [if_neg h1, if_neg h2] at hxy
              rw [if_neg h2, if_neg h1] at hyx
              have hcd : c = d := char_eq_of_toNat_eq (by omega)
              rw [hcd, ih ds hxy hyx]

theorem charListLt_trans :
    ∀ x y z, charListLt x y = true → charListLt y z = true →
      charListLt x z = true := by
  intro x
  induction x with
  | nil =>
      intro y z hxy hyz
      cases z with
      | nil => cases y <;> simp [charListLt] at hxy hyz
      | cons e es => simp [charListLt]
  | cons c cs ih =>
      intro y z hxy hyz
      cases y with
      | nil => simp [charListLt] at hxy
      | cons d ds =>
          cases z with
          | nil => simp [charListLt] at hyz
          | cons e es =>
              simp only [charListLt] at hxy hyz ⊢
              by_cases h1 : c.toNat < d.toNat
              · by_cases h2 : d.toNat < e.toNat
                · rw [if_pos (by omega)]
                · by_cases h3 : e.toNat < d.toNat
                  · rw [if_neg h2, if_pos h3] at hyz
                    cases hyz
                  · have hde : d = e := char_eq_of_toNat_eq (by omega)
                    rw [← hde]
                    rw [if_pos h1]
              · by_cases h2 : d.toNat < c.toNat
                · rw [if_neg h1, if_pos h2] at hxy
                  cases hxy
                · have hcd : c = d := char_eq_of_toNat_eq (by omega)
                  rw [if_neg h1, if_neg h2] at hxy
                  by_cases h3 : d.toNat < e.toNat
                  · rw [if_pos (by omega : c.toNat < e.toNat)]
                  · by_cases h4 : e.toNat < d.toNat
                    · rw [if_neg h3, if_pos h4] at hyz
                      cases hyz
                    · rw [if_neg h3, if_neg h4] at hyz
                      rw [if_neg (by omega), if_neg (by omega)]
                      exact ih ds es hxy hyz

instance : IsTotal String (fun a b => stringLe a b = true) := by
  constructor
  intro a b
  simp only [stringLe, stringLess, Bool.not_eq_true']
  cases h : charListLt b.data a.data
  · exact Or.inl rfl
  · exact Or.inr (charListLt_asymm _ _ h)

instance : IsTrans String (fun a b => stringLe a b = true) := by
  constructor
  intro a b c hab hbc
  simp only [stringLe, stringLess, Bool.not_eq_true'] at hab hbc ⊢
  by_contra hca
  have hca' : charListLt c.data a.data = true := by
    cases h : charListLt c.data a.data
    · exact absurd h hca
    · rfl
  cases h : charListLt b.data c.data
  · have hbc' : b.data = c.data := charListLt_connex _ _ h hbc
    rw [← hbc'] at hca'
    rw [hca'] at hab
    cases hab
  · have : charListLt b.data a.data = true := charListLt_trans _ _ _ h hca'
    rw [this] at hab
    cases hab

theorem sortAlphabetical_sorted (xs : List String) :
    List.Sorted (fun a b => stringLe a b = true) (sortAlphabetical xs) :=
  List.sorted_insertionSort _ xs

theorem sortAlphabetical_perm (xs : List String) :
    (sortAlphabetical xs).Perm xs :=
  List.perm_insertionSort _ xs

theorem sortAlphabetical_nodup {xs : List String} (h : xs.Nodup) :
    (sortAlphabetical xs).Nodup :=
  (sortAlphabetical_perm xs).symm.nodup h

/-! ## Import-set lemmas -/

theorem mem_insertImport (s : List String) (i a : String) :
    a ∈ insertImport s i ↔ a ∈ s ∨ a = i := by
  by_cases h : i ∈ s
  · simp only [insertImport, if_pos h]
    constructor
    · exact Or.inl
    · rintro (ha | rfl)
      · exact ha
      · exact h
  · simp [insertImport, if_neg h]

theorem insertImport_nodup {s : List String} (i : String) (h : s.Nodup) :
    (insertImport s i).Nodup := by
  by_cases hm : i ∈ s
  · simpa [insertImport, if_pos hm] using h
  · simp [insertImport, if_neg hm, List.nodup_append, h, hm]

theorem foldl_insertImport_nodup :
    ∀ (xs : List String) {s : List String}, s.Nodup →
      (xs.foldl insertImport s).Nodup := by
  intro xs
  induction xs with
  | nil => intro s h; exact h
  | cons x xs ih =>
      intro s h
      exact ih (insertImport_nodup x h)

theorem mem_foldl_insertImport :
    ∀ (xs : List String) (s : List String) (a : String),
      a ∈ xs.foldl insertImport s ↔ a ∈ s ∨ a ∈ xs := by
  intro xs
  induction xs with
  | nil => intro s a; simp
  | cons x xs ih =>
      intro s a
      rw [List.foldl_cons, ih, mem_insertImport]
      constructor
      · rintro ((h | rfl) | h)
        · exact Or.inl h
        · exact Or.inr (List.mem_cons_self a xs)
        · exact Or.inr (List.mem_cons_of_mem x h)
      · rintro (h | h)
        · exact Or.inl (Or.inl h)
        · rcases List.mem_cons.mp h with rfl | h
          · exact Or.inl (Or.inr rfl)
          · exact Or.inr h

/-! ## Scanning-fold lemmas -/

/-- The declaration loop increments both counters in lockstep: from
any starting pair it adds the number of exported-named function
declarations to both components. -/
theorem declLoop_spec :
    ∀ (ds : List Decl) (a b : Nat),
      ds.foldl declLoop (a, b) =
        (a + (ds.filter exportedFuncDeclSpec).length,
          b + (ds.filter exportedFuncDeclSpec).length) := by
  intro ds
  induction ds with
  | nil => intro a b; simp
  | cons d rest ih =>
      intro a b
      rw [List.foldl_cons, List.filter_cons]
      cases d with
      | funcDecl recv n =>
          rw [exportedFuncDeclSpec_funcDecl]
          by_cases h : isExported n = true
          · rw [if_pos h]
            simp only [declLoop, if_pos h]
            rw [ih]
            simp only [List.length_cons, Prod.mk.injEq]
            omega
          · have h' : isExported n = false := by
              cases hx : isExported n
              · rfl
              · exact absurd hx h
            simp only [declLoop, h', Bool.false_eq_true, if_false]
            exact ih a b
      | genDecl k ns =>
          simp only [declLoop, exportedFuncDeclSpec, Bool.false_eq_true, if_false]
          exact ih a b
      | badDecl =>
          simp only [declLoop, exportedFuncDeclSpec, Bool.false_eq_true, if_false]
          exact ih a b

/-- The exported-function count is the number of exported-named
function declarations. -/
theorem countExportedFuncs_eq_filter (ds : List Decl) :
    countExportedFuncs ds = (ds.filter exportedFuncDeclSpec).length := by
  rw [countExportedFuncs, declLoop_spec]
  simp

/-- `scanFile` unfolded through `declLoop_spec`: the per-file loop
adds the file's exported count to the running total and appends it to
the series. -/
theorem scanFile_eq (acc : ScanAcc) (f : GoFile) :
    scanFile acc f =
      { publicFunctions := acc.publicFunctions + publicFuncsPerFile f
        fileCount := acc.fileCount + 1
        data := acc.data ++ [publicFuncsPerFile f]
        imports := f.imports.foldl insertImport acc.imports } := by
  rw [scanFile]
  rw [declLoop_spec]
  rw [publicFuncsPerFile, countExportedFuncs, declLoop_spec]
  simp

theorem scanFoldl_data :
    ∀ (files : List GoFile) (acc : ScanAcc),
      (files.foldl scanFile acc).data = acc.data ++ files.map publicFuncsPerFile := by
  intro files
  induction files with
  | nil => intro acc; simp
  | cons f fs ih =>
      intro acc
      rw [List.foldl_cons, ih, scanFile_eq]
      simp

theorem scanFoldl_total :
    ∀ (files : List GoFile) (acc : ScanAcc),
      (files.foldl scanFile acc).publicFunctions =
        acc.publicFunctions + (files.map publicFuncsPerFile).sum := by
  intro files
  induction files with
  | nil => intro acc; simp
  | cons f fs ih =>
      intro acc
      rw [List.foldl_cons, ih, scanFile_eq]
      simp
      omega

theorem scanFoldl_fileCount :
    ∀ (files : List GoFile) (acc : ScanAcc),
      (files.foldl scanFile acc).fileCount = acc.fileCount + files.length := by
  intro files
  induction files with
  | nil => intro acc; simp
  | cons f fs ih =>
      intro acc
      rw [List.foldl_cons, ih, scanFile_eq]
      simp
      omega

theorem scanFoldl_imports :
    ∀ (files : List GoFile) (acc : ScanAcc),
      (files.foldl scanFile acc).imports =
        (files.flatMap GoFile.imports).foldl insertImport acc.imports := by
  intro files
  induction files with
  | nil => intro acc; simp
  | cons f fs ih =>
      intro acc
      rw [List.foldl_cons, ih, List.flatMap_cons, List.foldl_append, scanFile_eq]

theorem scanFiles_total (files : List GoFile) :
    (scanFiles files).publicFunctions = (scanFiles files).data.sum := by
  rw [scanFiles, scanFoldl_total, scanFoldl_data]
  simp

theorem scanFiles_fileCount (files : List GoFile) :
    (scanFiles files).fileCount = files.length := by
  rw [scanFiles, scanFoldl_fileCount]
  simp

theorem scanFiles_data_length (files : List GoFile) :
    (scanFiles files).data.length = files.length := by
  rw [scanFiles, scanFoldl_data]
  simp

theorem scanFiles_imports_nodup (files : List GoFile) :
    (scanFiles files).imports.Nodup := by
  rw [scanFiles, scanFoldl_imports]
  exact foldl_insertImport_nodup _ List.nodup_nil

theorem scanFiles_imports_mem (files : List GoFile) (a : String) :
    a ∈ (scanFiles files).imports ↔ a ∈ files.flatMap GoFile.imports := by
  rw [scanFiles, scanFoldl_imports, mem_foldl_insertImport]
  simp

/-! ## Remote-loop lemmas -/

theorem remoteLoop_ok :
    ∀ (rfs : List RemoteFile) (env : GithubEnv) (acc : ScanAcc) (calls : Nat)
      (acc' : ScanAcc) (calls' : Nat),
      remoteLoop env acc calls rfs = (Except.ok acc', calls') →
      ∃ gfs : List GoFile, acc' = gfs.foldl scanFile acc := by
  intro rfs
  induction rfs with
  | nil =>
      intro env acc calls acc' calls' h
      simp only [remoteLoop] at h
      injection h with h1 h2
      injection h1 with h3
      exact ⟨[], h3.symm⟩
  | cons rf rest ih =>
      intro env acc calls acc' calls' h
      simp only [remoteLoop] at h
      by_cases hgo : strEndsWith rf.name ".go" = true
      · rw [if_pos hgo] at h
        cases hfs : fileStep env rf with
        | error e => rw [hfs] at h; cases h
        | ok gf =>
            rw [hfs] at h
            rcases ih env (scanFile acc gf) (calls + 1) acc' calls' h with ⟨gfs, hg⟩
            exact ⟨gf :: gfs, by simpa using hg⟩
      · rw [if_neg hgo] at h
        exact ih env acc calls acc' calls' h

theorem remoteLoop_no_go :
    ∀ (rfs : List RemoteFile) (env : GithubEnv) (acc : ScanAcc) (calls : Nat),
      (∀ rf ∈ rfs, strEndsWith rf.name ".go" = false) →
      remoteLoop env acc calls rfs = (Except.ok acc, calls) := by
  intro rfs
  induction rfs with
  | nil => intro env acc calls _; rfl
  | cons rf rest ih =>
      intro env acc calls h
      have hrf : strEndsWith rf.name ".go" = false := h rf (List.mem_cons_self rf rest)
      simp only [remoteLoop, hrf]
      exact ih env acc calls (fun r hr => h r (List.mem_cons_of_mem rf hr))

theorem remoteLoop_fails :
    ∀ (rfs : List RemoteFile) (env : GithubEnv) (rf : RemoteFile) (err : String),
      rf ∈ rfs → strEndsWith rf.name ".go" = true →
      fileStep env rf = Except.error err →
      ∀ (acc : ScanAcc) (calls : Nat),
        ∃ e n, remoteLoop env acc calls rfs = (Except.error e, n) := by
  intro rfs
  induction rfs with
  | nil => intro env rf err hmem; cases hmem
  | cons r rest ih =>
      intro env rf err hmem hgo hfail acc calls
      rcases List.mem_cons.mp hmem with rfl | hmem'
      · refine ⟨err, calls + 1, ?_⟩
        simp only [remoteLoop, if_pos hgo, hfail]
      · by_cases hr : strEndsWith r.name ".go" = true
        · cases hfs : fileStep env r with
          | error e =>
              refine ⟨e, calls + 1, ?_⟩
              simp only [remoteLoop, if_pos hr, hfs]
          | ok gf =>
              have := ih env rf err hmem' hgo hfail (scanFile acc gf) (calls + 1)
              simpa only [remoteLoop, if_pos hr, hfs] using this
        · have := ih env rf err hmem' hgo hfail acc calls
          simpa only [remoteLoop, if_neg hr] using this

/-- Success of the GitHub path: the report is exactly the report of
scanning the successfully fetched and parsed `.go` files. -/
theorem parseGithubPackage_ok (env : GithubEnv) (pkg : String)
    (r : PkgReport) (calls : Nat)
    (h : parseGithubPackage env pkg = (Except.ok r, calls)) :
    ∃ gfs : List GoFile, r = mkReport none (scanFiles gfs) := by
  simp only [parseGithubPackage] at h
  split at h
  · cases h
  · split at h
    · cases h
    · rename_i dirC hdl
      split at h
      · cases h
      · rename_i acc calls2 hrl
        injection h with h1 h2
        injection h1 with h3
        rcases remoteLoop_ok dirC env ⟨0, 0, [], []⟩ 1 acc calls2 hrl with ⟨gfs, hg⟩
        exact ⟨gfs, by rw [← h3, hg]; rfl⟩

/-! ## Grouping lemmas for `parser.ParseDir` -/

/-- The files recorded for package name `n` across a group list:
concatenation of the file lists of the entries keyed `n`. -/
def filesOf (gs : List (String × List GoFile)) (n : String) : List GoFile :=
  gs.foldr (fun g acc => if g.1 = n then g.2 ++ acc else acc) []

theorem filesOf_nil (n : String) : filesOf [] n = [] := rfl

theorem filesOf_cons (m : String) (fs : List GoFile)
    (rest : List (String × List GoFile)) (n : String) :
    filesOf ((m, fs) :: rest) n =
      if m = n then fs ++ filesOf rest n else filesOf rest n := rfl

theorem filesOf_not_mem :
    ∀ (gs : List (String × List GoFile)) (n : String),
      n ∉ gs.map Prod.fst → filesOf gs n = [] := by
  intro gs
  induction gs with
  | nil => intro n _; rfl
  | cons g rest ih =>
      intro n hn
      rcases g with ⟨m, fs⟩
      rw [filesOf_cons]
      have hmn : m ≠ n := by
        intro hc
        exact hn (by simp [hc])
      rw [if_neg hmn]
      exact ih n (fun hc => hn (by simp [hc]))

theorem keys_insertGroup :
    ∀ (gs : List (String × List GoFile)) (f : GoFile),
      (insertGroup gs f).map Prod.fst =
        insertImport (gs.map Prod.fst) f.pkgName := by
  intro gs
  induction gs with
  | nil => intro f; simp [insertGroup, insertImport]
  | cons g rest ih =>
      intro f
      rcases g with ⟨n, fs⟩
      by_cases hn : n = f.pkgName
      · simp only [insertGroup, if_pos hn, List.map_cons, insertImport]
        have hmem : f.pkgName ∈ n :: rest.map Prod.fst := by
          rw [hn]
          exact List.mem_cons_self _ _
        rw [if_pos hmem]
      · simp only [insertGroup, if_neg hn, List.map_cons, insertImport, ih]
        by_cases hm : f.pkgName ∈ rest.map Prod.fst
        · have h1 : f.pkgName ∈ n :: rest.map Prod.fst := List.mem_cons_of_mem n hm
          rw [if_pos hm, if_pos h1]
        · have h1 : f.pkgName ∉ n :: rest.map Prod.fst := by
            intro hc
            rcases List.mem_cons.mp hc with hc' | hc'
            · exact hn hc'.symm
            · exact hm hc'
          rw [if_neg hm, if_neg h1]
          simp

theorem keys_foldl_insertGroup :
    ∀ (files : List GoFile) (gs : List (String × List GoFile)),
      (files.foldl insertGroup gs).map Prod.fst =
        (files.map GoFile.pkgName).foldl insertImport (gs.map Prod.fst) := by
  intro files
  induction files with
  | nil => intro gs; rfl
  | cons f fs ih =>
      intro gs
      rw [List.foldl_cons, ih, List.map_cons, List.foldl_cons, keys_insertGroup]

theorem nodup_keys_parseDir (files : List GoFile) :
    ((parseDir files).map Prod.fst).Nodup := by
  rw [parseDir, keys_foldl_insertGroup]
  exact foldl_insertImport_nodup _ List.nodup_nil

theorem mem_keys_parseDir (files : List GoFile) (n : String) :
    n ∈ (parseDir files).map Prod.fst ↔ n ∈ files.map GoFile.pkgName := by
  rw [parseDir, keys_foldl_insertGroup, mem_foldl_insertImport]
  simp

theorem filesOf_insertGroup :
    ∀ (gs : List (String × List GoFile)) (f : GoFile) (n : String),
      (gs.map Prod.fst).Nodup →
      filesOf (insertGroup gs f) n =
        if f.pkgName = n then filesOf gs n ++ [f] else filesOf gs n := by
  intro gs
  induction gs with
  | nil =>
      intro f n _
      by_cases hn : f.pkgName = n
      · simp [insertGroup, filesOf_cons, filesOf_nil, hn]
      · simp [insertGroup, filesOf_cons, filesOf_nil, hn]
  | cons g rest ih =>
      intro f n hnd
      rcases g with ⟨m, fs⟩
      have hnd' : (rest.map Prod.fst).Nodup := by
        simpa using hnd.of_cons
      have hm_rest : m ∉ rest.map Prod.fst := by
        have := hnd
        simp only [List.map_cons, List.nodup_cons] at this
        exact this.1
      by_cases hm : m = f.pkgName
      · simp only [insertGroup, if_pos hm]
        by_cases hn : f.pkgName = n
        · have hmn : m = n := hm.trans hn
          have hrest : filesOf rest n = [] := by
            apply filesOf_not_mem
            rw [← hmn]
            exact hm_rest
          simp only [filesOf_cons, if_pos hmn, hrest, if_pos hn]
          simp
        · have hmn : m ≠ n := by
            rw [hm]
            exact hn
          simp only [filesOf_cons, if_neg hmn, if_neg hn]
      · simp only [insertGroup, if_neg hm]
        by_cases hn : f.pkgName = n
        · have hmn : m ≠ n := fun hc => hm (hc.trans hn.symm)
          simp only [filesOf_cons, if_neg hmn, ih f n hnd', if_pos hn]
        · simp only [filesOf_cons, ih f n hnd', if_neg hn]

theorem nodup_keys_insertGroup
    {gs : List (String × List GoFile)} (f : GoFile)
    (h : (gs.map Prod.fst).Nodup) :
    ((insertGroup gs f).map Prod.fst).Nodup := by
  rw [keys_insertGroup]
  exact insertImport_nodup _ h

theorem filesOf_foldl_insertGroup :
    ∀ (files : List GoFile) (gs : List (String × List GoFile)) (n : String),
      (gs.map Prod.fst).Nodup →
      filesOf (files.foldl insertGroup gs) n =
        filesOf gs n ++ files.filter (fun f => f.pkgName == n) := by
  intro files
  induction files with
  | nil => intro gs n _; simp
  | cons f fs ih =>
      intro gs n hnd
      rw [List.foldl_cons, ih (insertGroup gs f) n (nodup_keys_insertGroup f hnd)]
      rw [filesOf_insertGroup gs f n hnd, List.filter_cons]
      by_cases hn : f.pkgName = n
      · rw [if_pos hn, if_pos (by simp [hn])]
        simp
      · rw [if_neg hn, if_neg (by simp [hn])]

theorem filesOf_parseDir (files : List GoFile) (n : String) :
    filesOf (parseDir files) n = files.filter (fun f => f.pkgName == n) := by
  rw [parseDir, filesOf_foldl_insertGroup files [] n List.nodup_nil, filesOf_nil]
  rfl

theorem filesOf_eq_of_mem :
    ∀ (gs : List (String × List GoFile)) (g : String × List GoFile),
      g ∈ gs → (gs.map Prod.fst).Nodup → filesOf gs g.1 = g.2 := by
  intro gs
  induction gs with
  | nil => intro g hg; cases hg
  | cons g0 rest ih =>
      intro g hg hnd
      rcases g0 with ⟨m, fs⟩
      have hm_rest : m ∉ rest.map Prod.fst := by
        simp only [List.map_cons, List.nodup_cons] at hnd
        exact hnd.1
      have hnd' : (rest.map Prod.fst).Nodup := by
        simp only [List.map_cons, List.nodup_cons] at hnd
        exact hnd.2
      rcases List.mem_cons.mp hg with rfl | hg'
      · rw [filesOf_cons, if_pos rfl, filesOf_not_mem rest _ hm_rest]
        simp
      · have hg1 : g.1 ∈ rest.map Prod.fst := List.mem_map_of_mem Prod.fst hg'
        have hmn : m ≠ g.1 := fun hc => hm_rest (hc ▸ hg1)
        rw [filesOf_cons, if_neg hmn]
        exact ih g hg' hnd'

/-- Every group `parser.ParseDir` produces holds exactly the
directory's files declaring that package name. -/
theorem parseDir_group_files (files : List GoFile)
    (g : String × List GoFile) (hg : g ∈ parseDir files) :
    g.2 = files.filter (fun f => f.pkgName == g.1) := by
  rw [← filesOf_parseDir files g.1]
  exact (filesOf_eq_of_mem (parseDir files) g hg (nodup_keys_parseDir files)).symm

/-! ## Concrete fixtures (the spec's scenario of §8 and small environments) -/

/-- Scenario file 1: one exported function, imports `"fmt"` and `"os"`. -/
def fileA : GoFile :=
  ⟨"a.go", "mypkg", [Decl.funcDecl false "Foo"], ["\"fmt\"", "\"os\""]⟩

/-- Scenario file 2: three exported functions (one of them a method),
imports `"fmt"`. -/
def fileB : GoFile :=
  ⟨"b.go", "mypkg",
    [Decl.funcDecl false "Alpha", Decl.funcDecl true "Beta",
      Decl.funcDecl false "Gamma"], ["\"fmt\""]⟩

/-- Scenario file 3: one exported function, one type declaration, no
imports. -/
def fileC : GoFile :=
  ⟨"c.go", "mypkg", [Decl.funcDecl false "Delta", Decl.genDecl "type" ["T"]], []⟩

/-- A GitHub collaborator whose directory holds one `.go` file that
fetches and parses successfully (to `fileA`). -/
def envOk : GithubEnv :=
  ⟨Except.ok [⟨"a.go", "p/a.go"⟩],
    fun _ => Except.ok "package mypkg",
    fun _ _ => Except.ok fileA⟩

/-- A GitHub collaborator whose directory listing is empty. -/
def envEmpty : GithubEnv :=
  ⟨Except.ok [], fun _ => Except.error "unused", fun _ _ => Except.error "unused"⟩

/-- A GitHub collaborator whose single `.go` file fails to fetch. -/
def envFail : GithubEnv :=
  ⟨Except.ok [⟨"a.go", "p/a.go"⟩],
    fun _ => Except.error "boom",
    fun _ _ => Except.error "unreached"⟩

/-- The report the GitHub path produces for `envOk`. -/
def reportA : PkgReport := mkReport none (scanFiles [fileA])

/-! ## The claims -/

/-- C1: for every sequence of scanned files, the total
exported-function count equals the sum of the per-file counts in the
series, and the reported file count equals the number of files
processed (the series length), in both the local and the GitHub code
path. -/
theorem c1_totals_both_paths :
    (∀ (files : List GoFile) (g : String × List GoFile), g ∈ parseDir files →
      (localReport g).publicFunctions = (localReport g).histData.sum ∧
      (localReport g).fileCount = g.2.length ∧
      (localReport g).histData.length = g.2.length) ∧
    (∀ (env : GithubEnv) (pkg : String) (r : PkgReport) (calls : Nat),
      parseGithubPackage env pkg = (Except.ok r, calls) →
      r.publicFunctions = r.histData.sum ∧ r.fileCount = r.histData.length) := by
  constructor
  · intro files g _
    refine ⟨?_, ?_, ?_⟩
    · simpa [localReport, mkReport] using scanFiles_total g.2
    · simpa [localReport, mkReport] using scanFiles_fileCount g.2
    · simpa [localReport, mkReport] using scanFiles_data_length g.2
  · intro env pkg r calls h
    rcases parseGithubPackage_ok env pkg r calls h with ⟨gfs, rfl⟩
    constructor
    · simpa [mkReport] using scanFiles_total gfs
    · simp [mkReport, scanFiles_fileCount, scanFiles_data_length]

/-- Witness for C1 at concrete inputs. -/
theorem c1_totals_both_paths_witness :
    (("mypkg", [fileA, fileB]) ∈ parseDir [fileA, fileB] ∧
      ((localReport ("mypkg", [fileA, fileB])).publicFunctions =
          (localReport ("mypkg", [fileA, fileB])).histData.sum ∧
        (localReport ("mypkg", [fileA, fileB])).fileCount = [fileA, fileB].length ∧
        (localReport ("mypkg", [fileA, fileB])).histData.length =
          [fileA, fileB].length)) ∧
    (parseGithubPackage envOk "github.com/owner/repo" = (Except.ok reportA, 2) ∧
      (reportA.publicFunctions = reportA.histData.sum ∧
        reportA.fileCount = reportA.histData.length)) :=
  ⟨⟨by decide,
      c1_totals_both_paths.1 [fileA, fileB] ("mypkg", [fileA, fileB]) (by decide)⟩,
    ⟨by rfl,
      c1_totals_both_paths.2 envOk "github.com/owner/repo" reportA 2 (by rfl)⟩⟩

/-- C2 counterexample: a local-mode run invokes the histogram builder
with 5 bins, not 3 (root.go line 142 reads `histogram.Hist(5, data)`),
refuting the claimed 3-bin local mode. -/
theorem c2_local_bins_counterexample :
    (parseLocalReports [fileA]).map PkgReport.histBins = [5] ∧
    ¬ (∀ r ∈ parseLocalReports [fileA], r.histBins = 3) := by
  constructor
  · decide
  · decide

/-- C2 amended: the histogram builder is invoked with 5 bins in the
local mode as well as the GitHub mode. -/
theorem c2_bins_five :
    (∀ (files : List GoFile) (r : PkgReport),
      r ∈ parseLocalReports files → r.histBins = 5) ∧
    (∀ (env : GithubEnv) (pkg : String) (r : PkgReport) (calls : Nat),
      parseGithubPackage env pkg = (Except.ok r, calls) → r.histBins = 5) := by
  constructor
  · intro files r hr
    rcases List.mem_map.mp hr with ⟨g, _, rfl⟩
    rfl
  · intro env pkg r calls h
    rcases parseGithubPackage_ok env pkg r calls h with ⟨gfs, rfl⟩
    rfl

/-- Witness for C2's amended theorem at concrete inputs. -/
theorem c2_bins_five_witness :
    (localReport ("mypkg", [fileA]) ∈ parseLocalReports [fileA] ∧
      (localReport ("mypkg", [fileA])).histBins = 5) ∧
    (parseGithubPackage envOk "github.com/owner/repo" = (Except.ok reportA, 2) ∧
      reportA.histBins = 5) :=
  ⟨⟨by decide, c2_bins_five.1 [fileA] (localReport ("mypkg", [fileA])) (by decide)⟩,
    ⟨by rfl, c2_bins_five.2 envOk "github.com/owner/repo" reportA 2 (by rfl)⟩⟩

/-- C3: a remote locator whose path splits on `/` into fewer than 3
segments fails with the invalid-locator error (`package not
specified`), prints nothing, and performs zero network calls. -/
theorem c3_invalid_locator_no_network (env : GithubEnv) (pkg : String)
    (h : (strSplitOnChar '/' (urlPath pkg)).length < 3) :
    parseGithubRun env pkg = (Except.error "package not specified", [], 0) := by
  simp only [parseGithubRun, parseGithubPackage, if_pos h]

/-- Witness for C3 at the spec's example locator `github.com/onlyowner`. -/
theorem c3_invalid_locator_no_network_witness :
    (strSplitOnChar '/' (urlPath "github.com/onlyowner")).length < 3 ∧
    parseGithubRun envOk "github.com/onlyowner" =
      (Except.error "package not specified", [], 0) :=
  ⟨by decide, c3_invalid_locator_no_network envOk "github.com/onlyowner" (by decide)⟩

/-- C4 counterexample: an empty local directory parses to zero
packages, so the per-package loop never runs: the run succeeds but
prints nothing at all — in particular no
`... has 0 exported function(s) across 0 file(s)` summary line,
refuting the claim that the Reporter still prints one. -/
theorem c4_empty_local_counterexample :
    parseLocalPackage (Except.ok []) = (Except.ok (), []) := by
  rfl

/-- C4 amended: zero matching files never fail.  The GitHub path
prints the empty histogram (no bars) followed by the
`0 exported function(s) across 0 file(s)` summary line; the local path
with an empty directory produces zero package units and prints
nothing. -/
theorem c4_empty_input :
    (parseLocalPackage (Except.ok []) = (Except.ok (), [])) ∧
    (∀ (env : GithubEnv) (pkg : String) (dirC : List RemoteFile),
      ¬ (strSplitOnChar '/' (urlPath pkg)).length < 3 →
      env.dirListing = Except.ok dirC →
      (∀ rf ∈ dirC, strEndsWith rf.name ".go" = false) →
      parseGithubRun env pkg =
        (Except.ok (),
          ["Package has 0 exported function(s) across 0 file(s)",
            "Importing the following: []"], 1)) := by
  constructor
  · rfl
  · intro env pkg dirC hlen hdl hno
    have hloop := remoteLoop_no_go dirC env ⟨0, 0, [], []⟩ 1 hno
    simp only [parseGithubRun, parseGithubPackage, if_neg hlen, hdl, hloop]
    rfl

/-- Witness for C4's amended theorem: an empty remote listing. -/
theorem c4_empty_input_witness :
    (¬ (strSplitOnChar '/' (urlPath "github.com/owner/repo")).length < 3) ∧
    envEmpty.dirListing = Except.ok [] ∧
    parseGithubRun envEmpty "github.com/owner/repo" =
      (Except.ok (),
        ["Package has 0 exported function(s) across 0 file(s)",
          "Importing the following: []"], 1) :=
  ⟨by decide, rfl,
    c4_empty_input.2 envEmpty "github.com/owner/repo" [] (by decide) rfl
      (by intro rf hrf; cases hrf)⟩

/-- C5: the accumulated import set holds each distinct import path at
most once however many files declare it (and exactly the declared
paths), and both paths report the import list sorted ascending by the
lexicographic string order. -/
theorem c5_imports_dedup_sorted :
    (∀ files : List GoFile, (scanFiles files).imports.Nodup) ∧
    (∀ (files : List GoFile) (a : String),
      a ∈ (scanFiles files).imports ↔ a ∈ files.flatMap GoFile.imports) ∧
    (∀ (files : List GoFile) (r : PkgReport), r ∈ parseLocalReports files →
      r.sortedImports.Nodup ∧
        List.Sorted (fun a b => stringLe a b = true) r.sortedImports) ∧
    (∀ (env : GithubEnv) (pkg : String) (r : PkgReport) (calls : Nat),
      parseGithubPackage env pkg = (Except.ok r, calls) →
      r.sortedImports.Nodup ∧
        List.Sorted (fun a b => stringLe a b = true) r.sortedImports) := by
  refine ⟨scanFiles_imports_nodup, scanFiles_imports_mem, ?_, ?_⟩
  · intro files r hr
    rcases List.mem_map.mp hr with ⟨g, _, rfl⟩
    exact ⟨sortAlphabetical_nodup (scanFiles_imports_nodup g.2),
      sortAlphabetical_sorted _⟩
  · intro env pkg r calls h
    rcases parseGithubPackage_ok env pkg r calls h with ⟨gfs, rfl⟩
    exact ⟨sortAlphabetical_nodup (scanFiles_imports_nodup gfs),
      sortAlphabetical_sorted _⟩

/-- Witness for C5 at concrete inputs. -/
theorem c5_imports_dedup_sorted_witness :
    (localReport ("mypkg", [fileA, fileB]) ∈ parseLocalReports [fileA, fileB] ∧
      ((localReport ("mypkg", [fileA, fileB])).sortedImports.Nodup ∧
        List.Sorted (fun a b => stringLe a b = true)
          (localReport ("mypkg", [fileA, fileB])).sortedImports)) ∧
    (parseGithubPackage envOk "github.com/owner/repo" = (Except.ok reportA, 2) ∧
      (reportA.sortedImports.Nodup ∧
        List.Sorted (fun a b => stringLe a b = true) reportA.sortedImports)) :=
  ⟨⟨by decide,
      c5_imports_dedup_sorted.2.2.1 [fileA, fileB]
        (localReport ("mypkg", [fileA, fileB])) (by decide)⟩,
    ⟨by rfl,
      c5_imports_dedup_sorted.2.2.2 envOk "github.com/owner/repo" reportA 2
        (by rfl)⟩⟩

/-- C6 counterexample: in the §8 scenario ([1, 3, 1] exported
functions; imports `"fmt"`, `"os"` in file 1 and `"fmt"` in file 2)
the summary line is as claimed, but the import list prints as
`["fmt" "os"]` — the raw quoted `i.Path.Value` strings — not as
`[fmt os]` without quote characters. -/
theorem c6_scenario_counterexample :
    (parseLocalReports [fileA, fileB, fileC]).map summaryLine =
      ["Package 'mypkg' has 5 exported function(s) across 3 file(s)"] ∧
    (parseLocalReports [fileA, fileB, fileC]).map importsLine =
      ["Importing the following: [\"fmt\" \"os\"]"] ∧
    "Importing the following: [\"fmt\" \"os\"]" ≠
      "Importing the following: [fmt os]" := by
  refine ⟨by decide, by decide, by decide⟩

/-- C6 amended: the scenario's summary line is
`Package 'mypkg' has 5 exported function(s) across 3 file(s)` and the
sorted import list renders with the surrounding quote characters
retained: `["fmt" "os"]`. -/
theorem c6_scenario :
    (parseLocalReports [fileA, fileB, fileC]).map summaryLine =
      ["Package 'mypkg' has 5 exported function(s) across 3 file(s)"] ∧
    (parseLocalReports [fileA, fileB, fileC]).map importsLine =
      ["Importing the following: [\"fmt\" \"os\"]"] := by
  refine ⟨by decide, by decide⟩

/-- C7: a file's exported-function count equals the number of its
top-level function declarations whose name starts with an upper-case
character; all other declarations contribute zero. -/
theorem c7_exported_count (f : GoFile) :
    publicFuncsPerFile f = (f.decls.filter exportedFuncDeclSpec).length := by
  rw [publicFuncsPerFile, countExportedFuncs_eq_filter]

/-- C10: the counting predicate accepts every `*ast.FuncDecl`, receiver
or not — an exported-named method counts exactly like a plain exported
function — while `GenDecl`s (type, const, var, import) and `BadDecl`s
never count. -/
theorem c10_methods_counted (ds : List Decl) (recv : Bool) (name : String)
    (k : String) (ns : List String) :
    countExportedFuncs (ds ++ [Decl.funcDecl recv name]) =
      countExportedFuncs ds + (if isExported name = true then 1 else 0) ∧
    countExportedFuncs (ds ++ [Decl.funcDecl true name]) =
      countExportedFuncs (ds ++ [Decl.funcDecl false name]) ∧
    countExportedFuncs (ds ++ [Decl.genDecl k ns]) = countExportedFuncs ds ∧
    countExportedFuncs (ds ++ [Decl.badDecl]) = countExportedFuncs ds := by
  refine ⟨?_, ?_, ?_, ?_⟩
  · rw [countExportedFuncs_eq_filter, countExportedFuncs_eq_filter,
      List.filter_append]
    cases h : isExported name
    · simp [exportedFuncDeclSpec_funcDecl, h]
    · simp [exportedFuncDeclSpec_funcDecl, h]
  · rw [countExportedFuncs_eq_filter, countExportedFuncs_eq_filter,
      List.filter_append, List.filter_append]
    cases h : isExported name <;> simp [exportedFuncDeclSpec_funcDecl, h]
  · rw [countExportedFuncs_eq_filter, countExportedFuncs_eq_filter,
      List.filter_append]
    simp [exportedFuncDeclSpec]
  · rw [countExportedFuncs_eq_filter, countExportedFuncs_eq_filter,
      List.filter_append]
    simp [exportedFuncDeclSpec]

/-- C8: a failed directory parse in the local path, and a failed
listing, fetch or parse in the GitHub path, abort the run with a
non-nil error and print nothing: no histogram, summary line or import
list. -/
theorem c8_fail_fast :
    (∀ e : String, parseLocalPackage (Except.error e) = (Except.error e, [])) ∧
    (∀ (env : GithubEnv) (pkg : String) (e : String),
      ¬ (strSplitOnChar '/' (urlPath pkg)).length < 3 →
      env.dirListing = Except.error e →
      parseGithubRun env pkg = (Except.error ("getting package: " ++ e), [], 1)) ∧
    (∀ (env : GithubEnv) (pkg : String) (dirC : List RemoteFile)
      (rf : RemoteFile) (err : String),
      ¬ (strSplitOnChar '/' (urlPath pkg)).length < 3 →
      env.dirListing = Except.ok dirC →
      rf ∈ dirC → strEndsWith rf.name ".go" = true →
      fileStep env rf = Except.error err →
      ∃ e calls, parseGithubRun env pkg = (Except.error e, [], calls)) := by
  refine ⟨fun e => rfl, ?_, ?_⟩
  · intro env pkg e hlen hdl
    simp only [parseGithubRun, parseGithubPackage, if_neg hlen, hdl]
  · intro env pkg dirC rf err hlen hdl hmem hgo hfail
    rcases remoteLoop_fails dirC env rf err hmem hgo hfail ⟨0, 0, [], []⟩ 1 with
      ⟨e, n, hloop⟩
    refine ⟨e, n, ?_⟩
    simp only [parseGithubRun, parseGithubPackage, if_neg hlen, hdl, hloop]

/-- Witness for C8 at concrete inputs: a fetch failure aborts the
GitHub run with no output. -/
theorem c8_fail_fast_witness :
    (¬ (strSplitOnChar '/' (urlPath "github.com/owner/repo")).length < 3) ∧
    envFail.dirListing = Except.ok [⟨"a.go", "p/a.go"⟩] ∧
    (⟨"a.go", "p/a.go"⟩ : RemoteFile) ∈ [(⟨"a.go", "p/a.go"⟩ : RemoteFile)] ∧
    strEndsWith "a.go" ".go" = true ∧
    fileStep envFail ⟨"a.go", "p/a.go"⟩ = Except.error "getting file: boom" ∧
    (∃ e calls,
      parseGithubRun envFail "github.com/owner/repo" = (Except.error e, [], calls)) :=
  ⟨by decide, rfl, by decide, by decide, by rfl,
    c8_fail_fast.2.2 envFail "github.com/owner/repo" [⟨"a.go", "p/a.go"⟩]
      ⟨"a.go", "p/a.go"⟩ "getting file: boom" (by decide) rfl (by decide)
      (by decide) (by rfl)⟩

/-- C9: the local file filter accepts everything, and `parser.ParseDir`
groups the directory's files by declared package name — one group (and
hence one report: histogram, summary line, import list) per distinct
name, each group holding exactly the files declaring that name. -/
theorem c9_filter_and_grouping :
    (∀ fi : FileInfo, dirFilter fi = true) ∧
    (∀ files : List GoFile, ((parseDir files).map Prod.fst).Nodup) ∧
    (∀ (files : List GoFile) (n : String),
      n ∈ (parseDir files).map Prod.fst ↔ n ∈ files.map GoFile.pkgName) ∧
    (∀ (files : List GoFile) (g : String × List GoFile), g ∈ parseDir files →
      g.2 = files.filter (fun f => f.pkgName == g.1)) ∧
    (∀ files : List GoFile, parseLocalReports files = (parseDir files).map localReport) :=
  ⟨fun _ => rfl, nodup_keys_parseDir, mem_keys_parseDir, parseDir_group_files,
    fun _ => rfl⟩

/-- Witness for C9 at a concrete two-package directory. -/
theorem c9_filter_and_grouping_witness :
    ("mypkg", [fileA, fileB]) ∈ parseDir [fileA, fileB] ∧
    ("mypkg", [fileA, fileB]).2 =
      [fileA, fileB].filter (fun f => f.pkgName == ("mypkg", [fileA, fileB]).1) :=
  ⟨by decide,
    c9_filter_and_grouping.2.2.2.1 [fileA, fileB] ("mypkg", [fileA, fileB])
      (by decide)⟩

end PackageAnalyser
